import Mathlib

/-!
Verification of the pyseps separation engine against its specification.

The definitions in this file are shallow embeddings of the Python source:
machine `uint8` pixel values become natural numbers, `int16` arithmetic
becomes integer arithmetic, and floating-point quantities (intensities,
grid coordinates, Floyd-Steinberg error values) become rational numbers.
Euclidean color distances, which the source computes with `np.linalg.norm`
and immediately compares against a threshold, are embedded via their
squares and bridged to the real square root in the theorems.
-/

namespace PySeps

/-! ## Color model and the Spot separator (src/modules/split.py) -/

/-- An RGB color triple; 8-bit components are modelled as integers
(the source casts pixel arrays to `int16` before taking differences). -/
structure RGB where
  r : ℤ
  g : ℤ
  b : ℤ
deriving DecidableEq

/-- Squared Euclidean distance between two RGB colors.  The source computes
`np.linalg.norm(img_array - color_array, axis=2)`; comparisons of that
norm against a threshold are embedded through this square. -/
def distSq (p q : RGB) : ℤ :=
  (p.r - q.r) * (p.r - q.r) + (p.g - q.g) * (p.g - q.g) + (p.b - q.b) * (p.b - q.b)

/-- `SpotSplit.split` membership test for one pixel and one tone:
`color_dist <= threshold`, and when a substrate is configured additionally
`substrate_dist > threshold`.  Comparing a nonnegative Euclidean norm with
`t` is equivalent to comparing its square with `t * t` together with the
sign of `t`, which is how the test is embedded here. -/
def spotMatch (threshold : ℤ) (substrate : Option RGB) (tone px : RGB) : Bool :=
  (decide (0 ≤ threshold) && decide (distSq px tone ≤ threshold * threshold)) &&
    match substrate with
    | none => true
    | some s => decide (threshold < 0) || decide (threshold * threshold < distSq px s)

/-- `mask.astype(np.uint8) * 255`: a matched pixel becomes 255, others 0. -/
def spotPixelValue (threshold : ℤ) (substrate : Option RGB) (tone px : RGB) : ℕ :=
  if spotMatch threshold substrate tone px then 255 else 0

/-- `SpotSplit.split`: one binary channel per configured tone, in tone order. -/
def spotSplitImage (threshold : ℤ) (substrate : Option RGB)
    (tones : List (String × RGB)) (img : List (List RGB)) :
    List (String × List (List ℕ)) :=
  tones.map fun nt =>
    (nt.1, img.map fun row => row.map (spotPixelValue threshold substrate nt.2))

/-! ## Dot renderer half-size (src/modules/dot/base.py) -/

/-- `DotSpec` from src/modules/dot/spec.py. -/
structure DotSpec where
  gradient : Bool := false
  gain : ℚ := 0
  modulate : Bool := true

/-- `DotBase._return_half_size`: when modulation is off the intensity is
replaced by 1.0, then `((size * intensity) / 2) * (1 - gain)` is clamped
from below by 0. -/
def return_half_size (spec : DotSpec) (size intensity : ℚ) : ℚ :=
  let intensity := if spec.modulate then intensity else 1
  let adjusted_radius := ((size * intensity) / 2) * (1 - spec.gain)
  max adjusted_radius 0

/-! ## Hardmix post-process (src/modules/halftone/base.py and src/modules/dot.py) -/

/-- `HalftoneBase._hardmix`, per pixel: the base channel value is inverted
(`255 - base`, exact on `uint8` inputs, widened to `uint16` before the
addition so nothing overflows), the blurred halftone value is added, and
the sum is thresholded: `np.where(combined >= 255, 255, 0)`. -/
def hardmix_pixel (base mask : ℕ) : ℕ :=
  if 255 ≤ 255 - base + mask then 255 else 0

/-- `DotBase._hardmix` from src/modules/dot.py, per pixel: the same
combination computed in Python `int` arithmetic, with the complementary
test `np.where(combined < 255, 0, 255)`. -/
def hardmix_dot_pixel (base mask : ℤ) : ℤ :=
  if 255 - base + mask < 255 then 0 else 255

/-! ## Theorems for claims C1, C2, C7 -/

theorem distSq_nonneg (p q : RGB) : 0 ≤ distSq p q := by
  unfold distSq
  have h1 := mul_self_nonneg (p.r - q.r)
  have h2 := mul_self_nonneg (p.g - q.g)
  have h3 := mul_self_nonneg (p.b - q.b)
  omega

/-- The boolean spot test agrees with the real-valued Euclidean-distance rule. -/
theorem spotMatch_iff_sqrt (threshold : ℤ) (substrate : Option RGB) (tone px : RGB) :
    spotMatch threshold substrate tone px = true ↔
      (Real.sqrt ((distSq px tone : ℤ) : ℝ) ≤ (threshold : ℝ) ∧
        ∀ s ∈ substrate, (threshold : ℝ) < Real.sqrt ((distSq px s : ℤ) : ℝ)) := by
  have htone : Real.sqrt ((distSq px tone : ℤ) : ℝ) ≤ (threshold : ℝ) ↔
      0 ≤ threshold ∧ distSq px tone ≤ threshold * threshold := by
    rw [Real.sqrt_le_iff]
    constructor
    · rintro ⟨h1, h2⟩
      refine ⟨by exact_mod_cast h1, ?_⟩
      have h2' : ((distSq px tone : ℤ) : ℝ) ≤ ((threshold * threshold : ℤ) : ℝ) := by
        push_cast
        nlinarith [h2]
      exact_mod_cast h2'
    · rintro ⟨h1, h2⟩
      refine ⟨by exact_mod_cast h1, ?_⟩
      have h2' : ((distSq px tone : ℤ) : ℝ) ≤ ((threshold * threshold : ℤ) : ℝ) := by
        exact_mod_cast h2
      push_cast at h2'
      nlinarith [h2']
  have hsub : ∀ s : RGB, ((threshold : ℝ) < Real.sqrt ((distSq px s : ℤ) : ℝ) ↔
      (threshold < 0 ∨ threshold * threshold < distSq px s)) := by
    intro s
    by_cases ht : 0 ≤ threshold
    · rw [Real.lt_sqrt (by exact_mod_cast ht)]
      constructor
      · intro h
        right
        have h' : ((threshold * threshold : ℤ) : ℝ) < ((distSq px s : ℤ) : ℝ) := by
          push_cast
          nlinarith [h]
        exact_mod_cast h'
      · rintro (h | h)
        · omega
        · have h' : ((threshold * threshold : ℤ) : ℝ) < ((distSq px s : ℤ) : ℝ) := by
            exact_mod_cast h
          push_cast at h'
          nlinarith [h']
    · constructor
      · intro _
        left
        omega
      · intro _
        have h1 : (threshold : ℝ) < 0 := by
          exact_mod_cast not_le.mp ht
        exact lt_of_lt_of_le h1 (Real.sqrt_nonneg _)
  cases substrate with
  | none =>
      simp only [spotMatch, Bool.and_eq_true, decide_eq_true_eq, Option.mem_def]
      rw [htone]
      simp
  | some s =>
      simp only [spotMatch, Bool.and_eq_true, Bool.or_eq_true, decide_eq_true_eq,
        Option.mem_def]
      rw [htone]
      constructor
      · rintro ⟨⟨h1, h2⟩, h3⟩
        refine ⟨⟨h1, h2⟩, ?_⟩
        rintro s' hs'
        cases hs'
        exact (hsub s).mpr h3
      · rintro ⟨⟨h1, h2⟩, h3⟩
        exact ⟨⟨h1, h2⟩, (hsub s).mp (h3 s rfl)⟩

/-- C1: for every RGB pixel and configured tone, the pixel belongs to the
tone's channel (mask value 255) iff its Euclidean RGB distance to the tone
is at most the threshold and, when a substrate is configured, its distance
to the substrate is strictly greater than the threshold; moreover a 1x1
black image split with the single tone K = (0,0,0), threshold 10 and the
default white substrate yields a channel K whose single pixel is 255. -/
theorem C1_spot_membership :
    (∀ (threshold : ℤ) (substrate : Option RGB) (tone px : RGB),
        spotPixelValue threshold substrate tone px = 255 ↔
          (Real.sqrt ((distSq px tone : ℤ) : ℝ) ≤ (threshold : ℝ) ∧
            ∀ s ∈ substrate, (threshold : ℝ) < Real.sqrt ((distSq px s : ℤ) : ℝ))) ∧
      spotSplitImage 10 (some ⟨255, 255, 255⟩) [("K", ⟨0, 0, 0⟩)] [[⟨0, 0, 0⟩]] =
        [("K", [[255]])] := by
  constructor
  · intro threshold substrate tone px
    rw [← spotMatch_iff_sqrt]
    unfold spotPixelValue
    split
    · next h => simp [h]
    · next h => simp [h]
  · decide

/-- C2: the effective half-size equals
`(size * effectiveIntensity / 2) * (1 - gain)` clamped to be nonnegative,
where the effective intensity is the sample intensity when `modulate` is
set and 1.0 otherwise; with modulation on, intensity 0 gives half-size 0,
and with modulation off the half-size does not depend on the intensity. -/
theorem C2_half_size :
    (∀ (spec : DotSpec) (size intensity : ℚ),
        return_half_size spec size intensity =
          max ((size * (if spec.modulate then intensity else 1) / 2) * (1 - spec.gain)) 0) ∧
      (∀ (gradient : Bool) (gain size : ℚ),
        return_half_size ⟨gradient, gain, true⟩ size 0 = 0) ∧
      (∀ (gradient : Bool) (gain size i1 i2 : ℚ),
        return_half_size ⟨gradient, gain, false⟩ size i1 =
          return_half_size ⟨gradient, gain, false⟩ size i2) := by
  refine ⟨fun spec size intensity => rfl, fun gradient gain size => ?_, fun _ _ _ _ _ => rfl⟩
  simp [return_half_size]

/-- C7: with a base channel value in `uint8` range, the hardmix output is
255 exactly when the inverted base plus the blurred halftone value reaches
255 and 0 otherwise, and the two hardmix implementations
(`HalftoneBase._hardmix` and `DotBase._hardmix`) agree pixelwise. -/
theorem C7_hardmix (base mask : ℕ) (hbase : base ≤ 255) :
    (255 ≤ 255 - (base : ℤ) + mask → hardmix_pixel base mask = 255) ∧
      (255 - (base : ℤ) + mask < 255 → hardmix_pixel base mask = 0) ∧
      (hardmix_pixel base mask : ℤ) = hardmix_dot_pixel base mask := by
  unfold hardmix_pixel hardmix_dot_pixel
  refine ⟨?_, ?_, ?_⟩
  · intro h
    rw [if_pos (by omega)]
  · intro h
    rw [if_neg (by omega)]
  · split <;> split <;> omega

theorem C7_hardmix_witness :
    (255 ≤ 255 - (10 : ℤ) + 250 → hardmix_pixel 10 250 = 255) ∧
      (255 - (10 : ℤ) + 250 < 255 → hardmix_pixel 10 250 = 0) ∧
      (hardmix_pixel 10 250 : ℤ) = hardmix_dot_pixel 10 250 :=
  C7_hardmix 10 250 (by norm_num)

/-! ## The halftone generate loop (src/modules/halftone/base.py) -/

/-- Python `int()` truncation toward zero, on a rational. -/
def truncQ (q : ℚ) : ℤ := if 0 ≤ q then ⌊q⌋ else ⌈q⌉

/-- `np.mean` of a block of pixel values. -/
def listMean (l : List ℕ) : ℚ := (l.map fun v => (v : ℚ)).sum / l.length

/-- The intensity clamp in `HalftoneBase.generate`:
`max(0.0, min(1.0, max(0.0, min(1.0, int(avg) / 255.0))))`. -/
def clampIntensity (avg : ℚ) : ℚ :=
  max 0 (min 1 (max 0 (min 1 ((truncQ avg : ℚ) / 255))))

/-- `HalftoneBase._get_clipped_block`: the `spacing x spacing` block centered
at `(x, y)`, clipped to the image bounds; `none` models the `None` return
when the clipped ranges are empty.  Pixels are indexed `pixels y x` as in
numpy, and the block is listed row-major as `np.ndarray.flatten` would. -/
def clippedBlock (spacing : ℚ) (x y : ℚ) (width height : ℕ) (pixels : ℕ → ℕ → ℕ) :
    Option (List ℕ) :=
  let half := spacing / 2
  let x0 := truncQ (x - half)
  let y0 := truncQ (y - half)
  let x1 := truncQ (x + half)
  let y1 := truncQ (y + half)
  let x0c := max 0 x0
  let y0c := max 0 y0
  let x1c := min (width : ℤ) x1
  let y1c := min (height : ℤ) y1
  if x1c ≤ x0c ∨ y1c ≤ y0c then none
  else
    some ((List.range (y1c - y0c).toNat).flatMap fun dy =>
      (List.range (x1c - x0c).toNat).map fun dx =>
        pixels (y0c + dy).toNat (x0c + dx).toNat)

/-- The per-grid-point loop of `HalftoneBase.generate`: points whose clipped
block is missing or empty are skipped, every other point is handed to the
dot renderer together with the clamped block-average intensity. -/
def generateSamples (spacing : ℚ) (width height : ℕ) (pixels : ℕ → ℕ → ℕ)
    (points : List (ℚ × ℚ)) : List (ℚ × ℚ × ℚ) :=
  points.filterMap fun p =>
    (clippedBlock spacing p.1 p.2 width height pixels).bind fun block =>
      if block.length = 0 then none
      else some (p.1, p.2, clampIntensity (listMean block))

/-- `ThresholdHalftone._iter_grid_points`: every pixel whose value exceeds
127 yields a grid point at its exact integer coordinate, scanned row-major. -/
def thresholdGridPoints (width height : ℕ) (pixels : ℕ → ℕ → ℕ) : List (ℚ × ℚ) :=
  (List.range height).flatMap fun y =>
    (List.range width).filterMap fun x =>
      if 127 < pixels y x then some ((x : ℚ), (y : ℚ)) else none

theorem clampIntensity_nonneg (avg : ℚ) : 0 ≤ clampIntensity avg :=
  le_max_left _ _

theorem clampIntensity_le_one (avg : ℚ) : clampIntensity avg ≤ 1 :=
  max_le (by norm_num) (min_le_left _ _)

/-- C5: every intensity value handed to the dot renderer by the generate
loop lies within the closed interval from 0 to 1. -/
theorem C5_intensity_clamped (spacing : ℚ) (width height : ℕ)
    (pixels : ℕ → ℕ → ℕ) (points : List (ℚ × ℚ)) (s : ℚ × ℚ × ℚ)
    (hs : s ∈ generateSamples spacing width height pixels points) :
    0 ≤ s.2.2 ∧ s.2.2 ≤ 1 := by
  rcases List.mem_filterMap.mp hs with ⟨p, _, hp⟩
  rcases hblock : clippedBlock spacing p.1 p.2 width height pixels with _ | block <;>
    rw [hblock] at hp
  · simp at hp
  · rw [Option.some_bind] at hp
    by_cases hlen : block.length = 0
    · rw [if_pos hlen] at hp
      simp at hp
    · rw [if_neg hlen] at hp
      have hs' : s = (p.1, p.2, clampIntensity (listMean block)) :=
        (Option.some_injective _ hp).symm
      rw [hs']
      exact ⟨clampIntensity_nonneg _, clampIntensity_le_one _⟩

/-- The all-white test image, `pixels y x = 255` everywhere. -/
def pxFull : ℕ → ℕ → ℕ := fun _ _ => 255

theorem C5_intensity_clamped_witness :
    ((1 : ℚ), (1 : ℚ), (1 : ℚ)) ∈ generateSamples 2 3 3 pxFull [(1, 1)] ∧
      (0 : ℚ) ≤ ((1 : ℚ), (1 : ℚ), (1 : ℚ)).2.2 ∧
        ((1 : ℚ), (1 : ℚ), (1 : ℚ)).2.2 ≤ 1 := by
  have h0 : truncQ ((1 : ℚ) - 2 / 2) = 0 := by norm_num [truncQ]
  have h2 : truncQ ((1 : ℚ) + 2 / 2) = 2 := by norm_num [truncQ]
  have hb : clippedBlock 2 1 1 3 3 pxFull = some [255, 255, 255, 255] := by
    simp only [clippedBlock, h0, h2]
    decide
  have hm : listMean [255, 255, 255, 255] = 255 := by
    norm_num [listMean]
  have hc : clampIntensity 255 = 1 := by
    have ht : truncQ 255 = 255 := by norm_num [truncQ]
    rw [clampIntensity, ht]
    norm_num
  have hmem : ((1 : ℚ), (1 : ℚ), (1 : ℚ)) ∈ generateSamples 2 3 3 pxFull [(1, 1)] := by
    simp only [generateSamples, List.filterMap_cons, List.filterMap_nil, hb,
      Option.some_bind, hm, hc]
    norm_num
  exact ⟨hmem, C5_intensity_clamped 2 3 3 pxFull [(1, 1)] _ hmem⟩

/-- A 3x3 test image whose only bright pixel is the center one. -/
def pxC8 : ℕ → ℕ → ℕ := fun y x => if y = 1 ∧ x = 1 then 255 else 0

/-- C8 counterexample: with the 3x3 image whose center pixel is 255 and
spacing 2, the single qualifying pixel (1,1) is handed to the renderer
with intensity 63/255 — the clamped average of its clipped block — not
with intensity 1.0 as the claim states. -/
theorem C8_counterexample :
    generateSamples 2 3 3 pxC8 (thresholdGridPoints 3 3 pxC8) = [(1, 1, 63 / 255)] ∧
      (63 / 255 : ℚ) ≠ 1 := by
  constructor
  · have hg : thresholdGridPoints 3 3 pxC8 = [(1, 1)] := by
      simp [thresholdGridPoints, pxC8, List.range_succ]
    have h0 : truncQ ((1 : ℚ) - 2 / 2) = 0 := by norm_num [truncQ]
    have h2 : truncQ ((1 : ℚ) + 2 / 2) = 2 := by norm_num [truncQ]
    have hb : clippedBlock 2 1 1 3 3 pxC8 = some [0, 0, 0, 255] := by
      simp only [clippedBlock, h0, h2]
      decide
    have hm : listMean [0, 0, 0, 255] = 255 / 4 := by
      norm_num [listMean]
    have hc : clampIntensity (255 / 4) = 63 / 255 := by
      have ht : truncQ (255 / 4) = 63 := by norm_num [truncQ]
      rw [clampIntensity, ht]
      norm_num
    rw [hg]
    simp only [generateSamples, List.filterMap_cons, List.filterMap_nil, hb,
      Option.some_bind, hm, hc]
    norm_num
  · norm_num

/-- C8 amended: exactly the pixels with value above 127 produce a grid
point, at the pixel's exact integer coordinate; every sample the generate
loop then hands to the renderer sits at such a grid point and carries the
clamped average intensity of the clipped block centered there (rather
than the constant 1.0 of the original claim). -/
theorem C8_amended :
    (∀ (width height : ℕ) (pixels : ℕ → ℕ → ℕ) (x y : ℕ),
        ((x : ℚ), (y : ℚ)) ∈ thresholdGridPoints width height pixels ↔
          x < width ∧ y < height ∧ 127 < pixels y x) ∧
      ∀ (spacing : ℚ) (width height : ℕ) (pixels : ℕ → ℕ → ℕ) (s : ℚ × ℚ × ℚ),
        s ∈ generateSamples spacing width height pixels
            (thresholdGridPoints width height pixels) →
          (s.1, s.2.1) ∈ thresholdGridPoints width height pixels ∧
            ∃ block, clippedBlock spacing s.1 s.2.1 width height pixels = some block ∧
              block.length ≠ 0 ∧ s.2.2 = clampIntensity (listMean block) := by
  constructor
  · intro width height pixels x y
    simp only [thresholdGridPoints, List.mem_flatMap, List.mem_filterMap, List.mem_range]
    constructor
    · rintro ⟨b, hb, a, ha, hax⟩
      by_cases h : 127 < pixels b a
      · rw [if_pos h] at hax
        have h' := Option.some.inj hax
        have h1 : a = x := Nat.cast_inj.mp (congrArg Prod.fst h')
        have h2 : b = y := Nat.cast_inj.mp (congrArg Prod.snd h')
        subst h1
        subst h2
        exact ⟨ha, hb, h⟩
      · rw [if_neg h] at hax
        exact absurd hax (by simp)
    · rintro ⟨hx, hy, hpx⟩
      exact ⟨y, hy, x, hx, by rw [if_pos hpx]⟩
  · intro spacing width height pixels s hs
    rcases List.mem_filterMap.mp hs with ⟨p, hp_mem, hp⟩
    rcases hblock : clippedBlock spacing p.1 p.2 width height pixels with _ | block <;>
      rw [hblock] at hp
    · simp at hp
    · rw [Option.some_bind] at hp
      by_cases hlen : block.length = 0
      · rw [if_pos hlen] at hp
        simp at hp
      · rw [if_neg hlen] at hp
        have hs' : s = (p.1, p.2, clampIntensity (listMean block)) :=
          (Option.some_injective _ hp).symm
        subst hs'
        exact ⟨hp_mem, block, hblock, hlen, rfl⟩

theorem C8_amended_witness :
    (((0 : ℚ), (0 : ℚ), (1 : ℚ)).1, ((0 : ℚ), (0 : ℚ), (1 : ℚ)).2.1) ∈
        thresholdGridPoints 1 1 pxFull ∧
      ∃ block,
        clippedBlock 2 ((0 : ℚ), (0 : ℚ), (1 : ℚ)).1 ((0 : ℚ), (0 : ℚ), (1 : ℚ)).2.1
            1 1 pxFull = some block ∧
          block.length ≠ 0 ∧
            ((0 : ℚ), (0 : ℚ), (1 : ℚ)).2.2 = clampIntensity (listMean block) := by
  have hthr : thresholdGridPoints 1 1 pxFull = [(0, 0)] := by
    simp [thresholdGridPoints, pxFull, List.range_succ]
  have hneg : truncQ ((0 : ℚ) - 2 / 2) = -1 := by
    rw [truncQ, if_neg (by norm_num),
      show ((0 : ℚ) - 2 / 2) = ((-1 : ℤ) : ℚ) by norm_num, Int.ceil_intCast]
  have hpos : truncQ ((0 : ℚ) + 2 / 2) = 1 := by norm_num [truncQ]
  have hb : clippedBlock 2 0 0 1 1 pxFull = some [255] := by
    simp only [clippedBlock, hneg, hpos]
    decide
  have hm : listMean [255] = 255 := by norm_num [listMean]
  have hc : clampIntensity 255 = 1 := by
    have ht : truncQ 255 = 255 := by norm_num [truncQ]
    rw [clampIntensity, ht]
    norm_num
  have hmem : ((0 : ℚ), (0 : ℚ), (1 : ℚ)) ∈
      generateSamples 2 1 1 pxFull (thresholdGridPoints 1 1 pxFull) := by
    rw [hthr]
    simp only [generateSamples, List.filterMap_cons, List.filterMap_nil, hb,
      Option.some_bind, hm, hc]
    norm_num
  exact C8_amended.2 2 1 1 pxFull _ hmem

/-! ## Preview compositing (src/core/pipeline.py, `_render_preview`) -/

/-- One channel's blend step, per pixel: `mask = 1 - halftone/255`, then
`composite = composite * (1 - mask * (1 - tone/255))` on each of the
three color components.  A channel is a pair of its halftone pixel value
and its tone color. -/
def compositeStep (c : ℚ × ℚ × ℚ) (channel : ℚ × (ℚ × ℚ × ℚ)) : ℚ × ℚ × ℚ :=
  let mask := 1 - channel.1 / 255
  let tone := channel.2
  (c.1 * (1 - mask * (1 - tone.1 / 255)),
   c.2.1 * (1 - mask * (1 - tone.2.1 / 255)),
   c.2.2 * (1 - mask * (1 - tone.2.2 / 255)))

/-- `Pipeline._render_preview`, per pixel: with no separations or no
substrate the preview is set to `None`; otherwise the buffer starts from
the substrate color normalized to `[0,1]` and every channel is folded in
with `compositeStep`, in configured order. -/
def renderPreviewPixel (substrate : Option (ℚ × ℚ × ℚ))
    (channels : List (ℚ × (ℚ × ℚ × ℚ))) : Option (ℚ × ℚ × ℚ) :=
  match substrate with
  | none => none
  | some s =>
    if channels = [] then none
    else some (channels.foldl compositeStep (s.1 / 255, s.2.1 / 255, s.2.2 / 255))

theorem compositeStep_full (comp : ℚ × ℚ × ℚ) (c : ℚ × (ℚ × ℚ × ℚ))
    (hc : c.1 = 255) : compositeStep comp c = comp := by
  obtain ⟨h, tone⟩ := c
  obtain ⟨a, b, d⟩ := comp
  simp only at hc
  subst hc
  simp [compositeStep]

theorem foldl_compositeStep_full (channels : List (ℚ × (ℚ × ℚ × ℚ)))
    (init : ℚ × ℚ × ℚ) (hfull : ∀ c ∈ channels, c.1 = 255) :
    channels.foldl compositeStep init = init := by
  induction channels generalizing init with
  | nil => rfl
  | cons c rest ih =>
      rw [List.foldl_cons, compositeStep_full init c (hfull c (List.mem_cons_self c rest))]
      exact ih init fun c' hc' => hfull c' (List.mem_cons_of_mem _ hc')

/-- C6 counterexample: compositing zero channels does not return the
substrate-filled buffer — `_render_preview` bails out and produces no
preview at all (`None`), which differs from the substrate-filled pixel. -/
theorem C6_counterexample :
    renderPreviewPixel (some (255, 255, 255)) [] = none ∧
      renderPreviewPixel (some (255, 255, 255)) [] ≠ some (1, 1, 1) := by
  exact ⟨rfl, by simp [renderPreviewPixel]⟩

/-- C6 amended: with at least one channel the composite starts from the
substrate-filled buffer and folds every channel in configured order with
`composite = composite * (1 - inkMask * (1 - toneNormalized))`; a channel
whose halftone is 255 (zero ink) leaves the composite unchanged, so
all-255 channels produce exactly the substrate-filled buffer; with zero
channels, however, the pipeline yields no preview (`None`) rather than
the substrate-filled buffer. -/
theorem C6_amended :
    (∀ (s : ℚ × ℚ × ℚ) (c : ℚ × (ℚ × ℚ × ℚ)) (rest : List (ℚ × (ℚ × ℚ × ℚ))),
        renderPreviewPixel (some s) (c :: rest) =
          some ((c :: rest).foldl compositeStep (s.1 / 255, s.2.1 / 255, s.2.2 / 255))) ∧
      (∀ (comp : ℚ × ℚ × ℚ) (h : ℚ) (tone : ℚ × ℚ × ℚ),
        compositeStep comp (h, tone) =
          (comp.1 * (1 - (1 - h / 255) * (1 - tone.1 / 255)),
           comp.2.1 * (1 - (1 - h / 255) * (1 - tone.2.1 / 255)),
           comp.2.2 * (1 - (1 - h / 255) * (1 - tone.2.2 / 255)))) ∧
      (∀ substrate : Option (ℚ × ℚ × ℚ), renderPreviewPixel substrate [] = none) ∧
      ∀ (s : ℚ × ℚ × ℚ) (channels : List (ℚ × (ℚ × ℚ × ℚ))),
        channels ≠ [] → (∀ c ∈ channels, c.1 = 255) →
          renderPreviewPixel (some s) channels =
            some (s.1 / 255, s.2.1 / 255, s.2.2 / 255) := by
  refine ⟨fun s c rest => by simp [renderPreviewPixel], fun comp h tone => rfl,
    fun substrate => by cases substrate <;> simp [renderPreviewPixel], ?_⟩
  intro s channels hne hfull
  rw [renderPreviewPixel, if_neg hne, foldl_compositeStep_full channels _ hfull]

theorem C6_amended_witness :
    renderPreviewPixel (some (255, 255, 255)) [(255, (0, 255, 255))] =
      some ((255 : ℚ) / 255, (255 : ℚ) / 255, (255 : ℚ) / 255) :=
  C6_amended.2.2.2 (255, 255, 255) [(255, (0, 255, 255))] (by simp)
    (by
      rintro c hc
      rw [List.mem_singleton] at hc
      subst hc
      rfl)

/-! ## Separator variants and their effect on their spec (src/modules/split.py) -/

/-- The dynamically typed `tones` field of `SplitSpec`: the Python code
stores either `None`, a tuple of RGB triples, or a name-to-color mapping
in the same attribute. -/
inductive Tones
  | noTones
  | plain (l : List RGB)
  | named (l : List (String × RGB))
deriving DecidableEq

/-- `SplitSpec` from src/modules/split.py. -/
structure SplitSpec where
  tones : Tones
  threshold : ℤ
  substrate : Option RGB
  angles : List ℤ
deriving DecidableEq

/-- The default `SplitSpec` (cyan, magenta, yellow, black tones, threshold
30, white substrate, angles 15/75/0/45). -/
def defaultSplitSpec : SplitSpec where
  tones := .plain [⟨0, 255, 255⟩, ⟨255, 0, 255⟩, ⟨255, 255, 0⟩, ⟨0, 0, 0⟩]
  threshold := 30
  substrate := some ⟨255, 255, 255⟩
  angles := [15, 75, 0, 45]

/-- `ProcessSplit.split`: assigns `spec.tones = ((255,0,0),(0,255,0),(0,0,255))`
and returns the four CMYK planes of the (already CMYK) image. -/
def processSplit (spec : SplitSpec) (img : List (List (ℕ × ℕ × ℕ × ℕ))) :
    SplitSpec × List (String × List (List ℕ)) :=
  ({ spec with tones := .plain [⟨255, 0, 0⟩, ⟨0, 255, 0⟩, ⟨0, 0, 255⟩] },
   [("C", img.map fun row => row.map fun p => p.1),
    ("M", img.map fun row => row.map fun p => p.2.1),
    ("Y", img.map fun row => row.map fun p => p.2.2.1),
    ("K", img.map fun row => row.map fun p => p.2.2.2)])

/-- `RGBSplit.split`: assigns the canonical four-tone set to `spec.tones`
and returns the R, G, B planes, plus an A plane when the image carries an
alpha plane. -/
def rgbSplit (spec : SplitSpec) (img : List (List RGB))
    (alphaPlane : Option (List (List ℕ))) :
    SplitSpec × List (String × List (List ℤ)) :=
  ({ spec with tones := .plain [⟨0, 255, 255⟩, ⟨255, 0, 255⟩, ⟨255, 255, 0⟩, ⟨0, 0, 0⟩] },
   [("R", img.map fun row => row.map fun p => p.r),
    ("G", img.map fun row => row.map fun p => p.g),
    ("B", img.map fun row => row.map fun p => p.b)] ++
     match alphaPlane with
     | none => []
     | some a => [("A", a.map fun row => row.map fun v => (v : ℤ))])

/-- `LSplit.split`: assigns `spec.tones = None` and returns the inverted
luminance plane (`ImageOps.invert`). -/
def lSplit (spec : SplitSpec) (img : List (List ℕ)) :
    SplitSpec × List (String × List (List ℕ)) :=
  ({ spec with tones := .noTones },
   [("L", img.map fun row => row.map fun v => 255 - v)])

/-- `SpotSplit.split` as a spec transformer: it reads `spec.tones` (which
must be a name-to-color mapping; `none` models the `TypeError` Python
would raise on a tuple) and never writes the spec. -/
def spotSplit (spec : SplitSpec) (img : List (List RGB)) :
    SplitSpec × Option (List (String × List (List ℕ))) :=
  (spec,
   match spec.tones with
   | .named l => some (spotSplitImage spec.threshold spec.substrate l img)
   | _ => none)

/-- C9 counterexample: `ProcessSplit.split` does not leave its `SplitSpec`
unchanged — on the default spec it overwrites the `tones` field. -/
theorem C9_counterexample :
    (processSplit defaultSplitSpec [[(0, 0, 0, 0)]]).1 ≠ defaultSplitSpec := by
  decide

/-- C9 amended: `SpotSplit.split` returns its channel mapping and leaves
the separator's `SplitSpec` unchanged, but `ProcessSplit`, `RGBSplit` and
`LSplit` overwrite the spec's `tones` field with their canonical tone sets
(leaving threshold, substrate and angles unchanged): `split` is not free
of side effects on the spec it was parameterized with. -/
theorem C9_amended :
    (∀ (spec : SplitSpec) (img : List (List RGB)), (spotSplit spec img).1 = spec) ∧
      (∀ (spec : SplitSpec) (img : List (List (ℕ × ℕ × ℕ × ℕ))),
        (processSplit spec img).1 =
          { spec with tones := .plain [⟨255, 0, 0⟩, ⟨0, 255, 0⟩, ⟨0, 0, 255⟩] }) ∧
      (∀ (spec : SplitSpec) (img : List (List RGB)) alphaPlane,
        (rgbSplit spec img alphaPlane).1 =
          { spec with
              tones := .plain [⟨0, 255, 255⟩, ⟨255, 0, 255⟩, ⟨255, 255, 0⟩, ⟨0, 0, 0⟩] }) ∧
      (∀ (spec : SplitSpec) (img : List (List ℕ)),
        (lSplit spec img).1 = { spec with tones := .noTones }) :=
  ⟨fun _ _ => rfl, fun _ _ => rfl, fun _ _ _ => rfl, fun _ _ => rfl⟩

/-! ## Module registry (src/core/registry/registry.py) -/

/-- Python `str.lower()`, on strings modelled as lists of characters. -/
def lowerStr (s : List Char) : List Char := s.map Char.toLower

/-- The `_aliases` dict, as an association list with unique keys;
`regLookup` is `dict.get`. -/
def regLookup (reg : List (List Char × List Char)) (key : List Char) :
    Option (List Char) :=
  List.lookup key reg

/-- `ModuleRegistry.get`: lowercases the alias, then looks it up; `none`
models the `ValueError` raised for an unknown alias. -/
def regGet (reg : List (List Char × List Char)) (name : List Char) :
    Option (List Char) :=
  regLookup reg (lowerStr name)

/-- The alias set built by `ModuleRegistry.register`: the given aliases
lowercased, together with the class's own lowercased name (a Python set,
embedded as a deduplicated list). -/
def aliasSet (aliases : List (List Char)) (clsName : List Char) : List (List Char) :=
  (aliases.map lowerStr ++ [lowerStr clsName]).dedup

/-- The registration loop: when an alias is already present it raises
(returning the registry as mutated so far and the offending alias),
otherwise the alias is bound to the class. -/
def insertAliases (reg : List (List Char × List Char)) (cls : List Char) :
    List (List Char) → List (List Char × List Char) × Option (List Char)
  | [] => (reg, none)
  | a :: rest =>
    if (regLookup reg a).isSome then (reg, some a)
    else insertAliases ((a, cls) :: reg) cls rest

/-- `ModuleRegistry.register`, for one class (the class is identified by
its name). -/
def registerCls (reg : List (List Char × List Char)) (aliases : List (List Char))
    (cls : List Char) : List (List Char × List Char) × Option (List Char) :=
  insertAliases reg cls (aliasSet aliases cls)

theorem regLookup_cons (k v key : List Char) (reg : List (List Char × List Char)) :
    regLookup ((k, v) :: reg) key = if key = k then some v else regLookup reg key := by
  simp only [regLookup, List.lookup]
  by_cases h : key = k
  · simp [h]
  · simp only [beq_eq_false_iff_ne.mpr h, if_neg h]

theorem insertAliases_preserves (l : List (List Char)) (reg : List (List Char × List Char))
    (cls k v : List Char) (hk : regLookup reg k = some v) :
    regLookup (insertAliases reg cls l).1 k = some v := by
  induction l generalizing reg with
  | nil => exact hk
  | cons a rest ih =>
      rw [insertAliases]
      by_cases hdup : (regLookup reg a).isSome
      · rw [if_pos hdup]
        exact hk
      · rw [if_neg hdup]
        refine ih ((a, cls) :: reg) ?_
        rw [regLookup_cons]
        have hka : k ≠ a := by
          intro h
          rw [h] at hk
          rw [hk] at hdup
          exact hdup rfl
        rw [if_neg hka]
        exact hk

theorem insertAliases_mem_resolves (l : List (List Char))
    (reg reg' : List (List Char × List Char)) (cls a : List Char) (ha : a ∈ l)
    (hok : insertAliases reg cls l = (reg', none)) :
    regLookup reg' a = some cls := by
  induction l generalizing reg with
  | nil => cases ha
  | cons b rest ih =>
      rw [insertAliases] at hok
      by_cases hdup : (regLookup reg b).isSome
      · rw [if_pos hdup] at hok
        cases hok
      · rw [if_neg hdup] at hok
        rcases List.mem_cons.mp ha with hab | harest
        · subst hab
          have hbase : regLookup ((a, cls) :: reg) a = some cls := by
            rw [regLookup_cons, if_pos rfl]
          have := insertAliases_preserves rest ((a, cls) :: reg) cls a cls hbase
          rw [hok] at this
          exact this
        · exact ih ((b, cls) :: reg) harest hok

theorem insertAliases_dup_raises (l : List (List Char))
    (reg : List (List Char × List Char)) (cls a : List Char) (ha : a ∈ l)
    (hdup : (regLookup reg a).isSome) :
    (insertAliases reg cls l).2.isSome := by
  induction l generalizing reg with
  | nil => cases ha
  | cons b rest ih =>
      rw [insertAliases]
      by_cases hb : (regLookup reg b).isSome
      · rw [if_pos hb]
        rfl
      · rw [if_neg hb]
        rcases List.mem_cons.mp ha with hab | harest
        · subst hab
          exact absurd hdup hb
        · refine ih ((b, cls) :: reg) harest ?_
          rw [regLookup_cons]
          by_cases hba : a = b
          · rw [if_pos hba]
            rfl
          · rw [if_neg hba]
            exact hdup

/-- C10: registry aliases are stored and resolved case-insensitively
(resolution depends only on the lowercased alias, and registration stores
lowercased aliases so mixed-case registration resolves under any casing of
the alias); the class's own lowercased name is always registered as an
additional alias; and registering an already-present alias raises while
every previously registered alias stays resolvable to its class. -/
theorem C10_registry :
    (∀ (reg : List (List Char × List Char)) (a b : List Char),
        lowerStr a = lowerStr b → regGet reg a = regGet reg b) ∧
      (∀ (reg reg' : List (List Char × List Char)) (aliases : List (List Char))
          (cls : List Char), registerCls reg aliases cls = (reg', none) →
          regGet reg' cls = some cls) ∧
      (∀ (reg reg' : List (List Char × List Char)) (aliases : List (List Char))
          (cls a : List Char), a ∈ aliases →
          registerCls reg aliases cls = (reg', none) → regGet reg' a = some cls) ∧
      (∀ (reg : List (List Char × List Char)) (aliases : List (List Char))
          (cls a : List Char), a ∈ aliasSet aliases cls →
          (regLookup reg a).isSome → (registerCls reg aliases cls).2.isSome) ∧
      (∀ (reg : List (List Char × List Char)) (aliases : List (List Char))
          (cls k v : List Char), regGet reg k = some v →
          regGet (registerCls reg aliases cls).1 k = some v) := by
  refine ⟨?_, ?_, ?_, ?_, ?_⟩
  · intro reg a b h
    unfold regGet
    rw [h]
  · intro reg reg' aliases cls hok
    have hmem : lowerStr cls ∈ aliasSet aliases cls := by
      unfold aliasSet
      rw [List.mem_dedup]
      exact List.mem_append_right _ (List.mem_singleton.mpr rfl)
    exact insertAliases_mem_resolves _ reg reg' cls (lowerStr cls) hmem hok
  · intro reg reg' aliases cls a ha hok
    have hmem : lowerStr a ∈ aliasSet aliases cls := by
      unfold aliasSet
      rw [List.mem_dedup]
      exact List.mem_append_left _ (List.mem_map_of_mem lowerStr ha)
    exact insertAliases_mem_resolves _ reg reg' cls (lowerStr a) hmem hok
  · intro reg aliases cls a ha hdup
    exact insertAliases_dup_raises _ reg cls a ha hdup
  · intro reg aliases cls k v hk
    exact insertAliases_preserves _ reg cls (lowerStr k) v hk

/-! ## AM grid screening (src/modules/halftone/impl.py) -/

/-- `int(math.ceil((max - min) / spacing))` over the four rotated corner
coordinates of `AMHalftone._iter_grid_points` (Python `min`/`max` over the
four-element list written as nested binary operations). -/
def amSpanCount (spacing v1 v2 v3 v4 : ℚ) : ℤ :=
  ⌈(max (max (max v1 v2) v3) v4 - min (min (min v1 v2) v3) v4) / spacing⌉

/-- `AMHalftone._iter_grid_points` before the bounds filter: the image
corners are rotated by the screen angle (represented exactly by the pair
`cosA`, `sinA`), a grid of pitch `spacing` covers the rotated bounding
box, and every vertex is rotated back into image space.  `range(nx+1)`
over a possibly negative Python int is `(nx + 1).toNat` elements. -/
def amGenerated (spacing cosA sinA : ℚ) (width height : ℕ) : List (ℚ × ℚ) :=
  let w : ℚ := width
  let h : ℚ := height
  let cx := w / 2
  let cy := h / 2
  let rx1 := (-cx) * cosA + (-cy) * sinA
  let rx2 := (w - cx) * cosA + (-cy) * sinA
  let rx3 := (-cx) * cosA + (h - cy) * sinA
  let rx4 := (w - cx) * cosA + (h - cy) * sinA
  let ry1 := -(-cx) * sinA + (-cy) * cosA
  let ry2 := -(w - cx) * sinA + (-cy) * cosA
  let ry3 := -(-cx) * sinA + (h - cy) * cosA
  let ry4 := -(w - cx) * sinA + (h - cy) * cosA
  let minRx := min (min (min rx1 rx2) rx3) rx4
  let minRy := min (min (min ry1 ry2) ry3) ry4
  let nx := amSpanCount spacing rx1 rx2 rx3 rx4
  let ny := amSpanCount spacing ry1 ry2 ry3 ry4
  (List.range (nx + 1).toNat).flatMap fun (i : ℕ) =>
    (List.range (ny + 1).toNat).map fun (j : ℕ) =>
      let rx := minRx + (i : ℚ) * spacing
      let ry := minRy + (j : ℚ) * spacing
      let dx := rx * cosA - ry * sinA
      let dy := rx * sinA + ry * cosA
      (dx + cx, dy + cy)

/-- The bounds filter `0 <= x < width and 0 <= y < height` applied to the
generated grid points; only these are yielded. -/
def amRetained (spacing cosA sinA : ℚ) (width height : ℕ) : List (ℚ × ℚ) :=
  (amGenerated spacing cosA sinA width height).filter fun p =>
    decide (0 ≤ p.1) && decide (p.1 < (width : ℚ)) &&
      decide (0 ≤ p.2) && decide (p.2 < (height : ℚ))

theorem length_flatMap_range_map {α : Type} (n m : ℕ) (g : ℕ → ℕ → α) :
    ((List.range n).flatMap fun i => (List.range m).map (g i)).length = n * m := by
  induction n with
  | zero => simp
  | succ k ih =>
      rw [List.range_succ, List.flatMap_append, List.length_append, ih]
      simp [Nat.succ_mul]

theorem amSpanCount_pair (spacing a b : ℚ) (hab : a ≤ b) :
    amSpanCount spacing a b a b = ⌈(b - a) / spacing⌉ := by
  unfold amSpanCount
  rw [min_eq_left hab, min_self, min_eq_left hab,
    max_eq_right hab, max_eq_left hab, max_self]

theorem amSpanCount_pair2 (spacing a b : ℚ) (hab : a ≤ b) :
    amSpanCount spacing a a b b = ⌈(b - a) / spacing⌉ := by
  unfold amSpanCount
  rw [min_self, min_eq_left hab, min_eq_left hab,
    max_self, max_eq_right hab, max_self]

/-- C4: every retained AM grid sample lies inside the image bounds (for any
angle, any spacing and any image size), and at angle zero the number of
generated grid points before boundary rejection is
`(ceil(W / spacing) + 1) * (ceil(H / spacing) + 1)`. -/
theorem C4_am_grid :
    (∀ (spacing cosA sinA : ℚ) (width height : ℕ) (p : ℚ × ℚ),
        p ∈ amRetained spacing cosA sinA width height →
          0 ≤ p.1 ∧ p.1 < width ∧ 0 ≤ p.2 ∧ p.2 < height) ∧
      ∀ (spacing : ℚ) (width height : ℕ), 0 < spacing → 0 < width → 0 < height →
        ((amGenerated spacing 1 0 width height).length : ℤ) =
          (⌈(width : ℚ) / spacing⌉ + 1) * (⌈(height : ℚ) / spacing⌉ + 1) := by
  constructor
  · intro spacing cosA sinA width height p hp
    have h := List.mem_filter.mp hp
    have hcond := h.2
    simp only [Bool.and_eq_true, decide_eq_true_eq] at hcond
    exact ⟨hcond.1.1.1, hcond.1.1.2, hcond.1.2, hcond.2⟩
  · intro spacing width height hs hw hh
    have hwQ : (0 : ℚ) < (width : ℚ) := by exact_mod_cast hw
    have hhQ : (0 : ℚ) < (height : ℚ) := by exact_mod_cast hh
    unfold amGenerated
    dsimp only
    rw [length_flatMap_range_map]
    have ex : ∀ c d : ℚ, c * 1 + d * 0 = c := fun c d => by ring
    have ey : ∀ c d : ℚ, -c * 0 + d * 1 = d := fun c d => by ring
    rw [ex, ex, ex, ex, ey, ey, ey, ey]
    have hxpair : (-(((width : ℚ)) / 2)) ≤ (width : ℚ) - (width : ℚ) / 2 := by linarith
    have hypair : (-(((height : ℚ)) / 2)) ≤ (height : ℚ) - (height : ℚ) / 2 := by
      linarith
    rw [amSpanCount_pair _ _ _ hxpair, amSpanCount_pair2 _ _ _ hypair]
    have hxspan : ((width : ℚ) - (width : ℚ) / 2) - (-(((width : ℚ)) / 2)) = width := by
      ring
    have hyspan : ((height : ℚ) - (height : ℚ) / 2) - (-(((height : ℚ)) / 2)) = height := by
      ring
    rw [hxspan, hyspan]
    have hxc : (0 : ℤ) < ⌈(width : ℚ) / spacing⌉ :=
      Int.ceil_pos.mpr (div_pos hwQ hs)
    have hyc : (0 : ℤ) < ⌈(height : ℚ) / spacing⌉ :=
      Int.ceil_pos.mpr (div_pos hhQ hs)
    push_cast [Int.toNat_of_nonneg (by omega : (0 : ℤ) ≤ ⌈(width : ℚ) / spacing⌉ + 1),
      Int.toNat_of_nonneg (by omega : (0 : ℤ) ≤ ⌈(height : ℚ) / spacing⌉ + 1)]
    ring

theorem C4_am_grid_witness :
    (0 ≤ ((0 : ℚ), (0 : ℚ)).1 ∧ ((0 : ℚ), (0 : ℚ)).1 < ((1 : ℕ) : ℚ) ∧
        0 ≤ ((0 : ℚ), (0 : ℚ)).2 ∧ ((0 : ℚ), (0 : ℚ)).2 < ((1 : ℕ) : ℚ)) ∧
      ((amGenerated 1 1 0 2 2).length : ℤ) =
        (⌈((2 : ℕ) : ℚ) / 1⌉ + 1) * (⌈((2 : ℕ) : ℚ) / 1⌉ + 1) := by
  have hmem : ((0 : ℚ), (0 : ℚ)) ∈ amRetained 1 1 0 1 1 := by
    simp only [amRetained, amGenerated, amSpanCount]
    norm_num [min_def, max_def, List.range_succ, List.filter]
  exact ⟨C4_am_grid.1 1 1 0 1 1 ((0 : ℚ), (0 : ℚ)) hmem,
    C4_am_grid.2 1 2 2 (by norm_num) (by norm_num) (by norm_num)⟩

theorem C10_registry_witness :
    regGet [(['a'], ['X'])] ['A'] = regGet [(['a'], ['X'])] ['a'] ∧
      regGet [(['c'], ['C']), (['n'], ['C']), (['a'], ['X'])] ['C'] = some ['C'] ∧
      regGet [(['c'], ['C']), (['n'], ['C']), (['a'], ['X'])] ['N'] = some ['C'] ∧
      (registerCls [(['a'], ['X'])] [['A']] ['B']).2.isSome ∧
      regGet (registerCls [(['a'], ['X'])] [['N']] ['C']).1 ['a'] = some ['X'] := by
  have hreg : registerCls [(['a'], ['X'])] [['N']] ['C'] =
      ([(['c'], ['C']), (['n'], ['C']), (['a'], ['X'])], none) := by decide
  refine ⟨C10_registry.1 [(['a'], ['X'])] ['A'] ['a'] (by decide),
    C10_registry.2.1 [(['a'], ['X'])] _ [['N']] ['C'] hreg,
    C10_registry.2.2.1 [(['a'], ['X'])] _ [['N']] ['C'] ['N'] (by decide) hreg,
    C10_registry.2.2.2.1 [(['a'], ['X'])] [['A']] ['B'] ['a'] (by decide) (by decide),
    ?_⟩
  have h5 := C10_registry.2.2.2.2 [(['a'], ['X'])] [['N']] ['C'] ['a'] ['X'] (by decide)
  exact h5

/-! ## Floyd-Steinberg dithering (src/modules/halftone/impl.py,
`DitherHalftone._iter_grid_points`, and the identical loop in
src/modules/screen.py).  The coarse grid is a function `arr y x` indexed
as in numpy; the scan state is the pair of the working array and the
output array `out` (initially `np.zeros_like`). -/

/-- Pointwise increment, `arr[y, x] += d`. -/
def addAt (arr : ℕ → ℕ → ℚ) (y x : ℕ) (d : ℚ) : ℕ → ℕ → ℚ :=
  fun y' x' => if y' = y ∧ x' = x then arr y' x' + d else arr y' x'

/-- Pointwise assignment, `out[y, x] = v`. -/
def setAt (arr : ℕ → ℕ → ℚ) (y x : ℕ) (v : ℚ) : ℕ → ℕ → ℚ :=
  fun y' x' => if y' = y ∧ x' = x then v else arr y' x'

/-- `new_pixel = 1.0 if old_pixel >= 0.5 else 0.0`. -/
def fsQuant (v : ℚ) : ℚ := if 1 / 2 ≤ v then 1 else 0

/-- The four in-bounds error-diffusion updates of one cell, in source
order: right `error * 7 / 16`, below-left `error * 3 / 16`, below
`error * 5 / 16`, below-right `error * 1 / 16`; Python `x - 1 >= 0`
becomes `1 ≤ x` with natural subtraction for the index. -/
def fsDiffuse (w h y x : ℕ) (err : ℚ) (arr : ℕ → ℕ → ℚ) : ℕ → ℕ → ℚ :=
  let a1 := if x + 1 < w then addAt arr y (x + 1) (err * 7 / 16) else arr
  let a2 := if 1 ≤ x ∧ y + 1 < h then addAt a1 (y + 1) (x - 1) (err * 3 / 16) else a1
  let a3 := if y + 1 < h then addAt a2 (y + 1) x (err * 5 / 16) else a2
  let a4 := if x + 1 < w ∧ y + 1 < h then addAt a3 (y + 1) (x + 1) (err * 1 / 16) else a3
  a4

/-- One iteration of the dithering loop at cell `c = (y, x)`: quantize the
current (error-adjusted) value, record it in `out`, and diffuse the
quantization error. -/
def fsStep (w h : ℕ) (st : (ℕ → ℕ → ℚ) × (ℕ → ℕ → ℚ)) (c : ℕ × ℕ) :
    (ℕ → ℕ → ℚ) × (ℕ → ℕ → ℚ) :=
  let old := st.1 c.1 c.2
  let newp := fsQuant old
  (fsDiffuse w h c.1 c.2 (old - newp) st.1, setAt st.2 c.1 c.2 newp)

/-- The row-major scan order `for y in range(height): for x in range(width)`. -/
def fsCells (w h : ℕ) : List (ℕ × ℕ) :=
  (List.range h).flatMap fun y => (List.range w).map fun x => (y, x)

/-- Run the dithering loop over a list of cells. -/
def fsProcess (w h : ℕ) (cells : List (ℕ × ℕ))
    (st : (ℕ → ℕ → ℚ) × (ℕ → ℕ → ℚ)) : (ℕ → ℕ → ℚ) × (ℕ → ℕ → ℚ) :=
  cells.foldl (fsStep w h) st

/-- The whole Floyd-Steinberg pass over a `w` by `h` coarse grid. -/
def fsDither (w h : ℕ) (arr0 : ℕ → ℕ → ℚ) : (ℕ → ℕ → ℚ) × (ℕ → ℕ → ℚ) :=
  fsProcess w h (fsCells w h) (arr0, fun _ _ => 0)

theorem addAt_eval (arr : ℕ → ℕ → ℚ) (y x y' x' : ℕ) (d : ℚ) :
    addAt arr y x d y' x' = arr y' x' + if y' = y ∧ x' = x then d else 0 := by
  unfold addAt
  split_ifs with h
  · rfl
  · ring

/-- Closed form of one diffusion step: each in-bounds neighbor receives
exactly its weighted share of the error, all other cells are unchanged. -/
theorem fsDiffuse_eval (w h y x : ℕ) (err : ℚ) (arr : ℕ → ℕ → ℚ) (y' x' : ℕ) :
    fsDiffuse w h y x err arr y' x' =
      arr y' x' +
        (if y' = y ∧ x' = x + 1 ∧ x + 1 < w then err * 7 / 16 else 0) +
        (if y' = y + 1 ∧ x' = x - 1 ∧ 1 ≤ x ∧ y + 1 < h then err * 3 / 16 else 0) +
        (if y' = y + 1 ∧ x' = x ∧ y + 1 < h then err * 5 / 16 else 0) +
        (if y' = y + 1 ∧ x' = x + 1 ∧ x + 1 < w ∧ y + 1 < h then err * 1 / 16
          else 0) := by
  unfold fsDiffuse
  by_cases h1 : x + 1 < w <;> by_cases hx : 1 ≤ x <;> by_cases h3 : y + 1 < h <;>
    simp only [h1, hx, h3, and_true, and_false, true_and, false_and, if_true, if_false,
      not_false_iff, addAt_eval] <;>
    ring

theorem fsProcess_append (w h : ℕ) (l1 l2 : List (ℕ × ℕ))
    (st : (ℕ → ℕ → ℚ) × (ℕ → ℕ → ℚ)) :
    fsProcess w h (l1 ++ l2) st = fsProcess w h l2 (fsProcess w h l1 st) := by
  unfold fsProcess
  rw [List.foldl_append]

theorem fsProcess_out_eq (w h : ℕ) (cells : List (ℕ × ℕ))
    (st : (ℕ → ℕ → ℚ) × (ℕ → ℕ → ℚ)) (y x : ℕ) (hnot : (y, x) ∉ cells) :
    (fsProcess w h cells st).2 y x = st.2 y x := by
  induction cells generalizing st with
  | nil => rfl
  | cons c rest ih =>
      have hne : (y, x) ≠ c := fun he => hnot (he ▸ List.mem_cons_self c rest)
      have hnr : (y, x) ∉ rest := fun hm => hnot (List.mem_cons_of_mem c hm)
      have hstep : fsProcess w h (c :: rest) st = fsProcess w h rest (fsStep w h st c) :=
        rfl
      rw [hstep, ih (fsStep w h st c) hnr]
      show setAt st.2 c.1 c.2 _ y x = st.2 y x
      unfold setAt
      rw [if_neg]
      rintro ⟨hy, hx⟩
      exact hne (Prod.ext_iff.mpr ⟨hy, hx⟩)

theorem fsCells_nodup (w h : ℕ) : (fsCells w h).Nodup := by
  unfold fsCells
  rw [List.nodup_flatMap]
  constructor
  · intro y _
    exact List.Nodup.map (fun a b hab => by simpa using hab) (List.nodup_range w)
  · refine (List.pairwise_lt_range h).imp ?_
    intro y1 y2 hlt p hp1 hp2
    rcases List.mem_map.mp hp1 with ⟨x1, _, he1⟩
    rcases List.mem_map.mp hp2 with ⟨x2, _, he2⟩
    rw [← he1] at he2
    have : y1 = y2 := congrArg Prod.fst he2.symm
    omega

theorem fsDither_out_at (w h : ℕ) (arr0 : ℕ → ℕ → ℚ) (pre post : List (ℕ × ℕ))
    (y x : ℕ) (hsplit : fsCells w h = pre ++ (y, x) :: post) :
    (fsDither w h arr0).2 y x =
      fsQuant ((fsProcess w h pre (arr0, fun _ _ => 0)).1 y x) := by
  have hnd : (fsCells w h).Nodup := fsCells_nodup w h
  rw [hsplit] at hnd
  have hnotpost : (y, x) ∉ post :=
    (List.nodup_cons.mp (List.Nodup.of_append_right hnd)).1
  unfold fsDither
  rw [hsplit, show pre ++ (y, x) :: post = (pre ++ [(y, x)]) ++ post by simp,
    fsProcess_append, fsProcess_append,
    fsProcess_out_eq w h post _ y x hnotpost]
  show (fsStep w h (fsProcess w h pre (arr0, fun _ _ => 0)) (y, x)).2 y x = _
  unfold fsStep setAt
  dsimp only
  rw [if_pos ⟨rfl, rfl⟩]

/-- C3: the dither screener scans the coarse grid row-major (`fsCells`);
the output at each cell is 1 exactly when its error-adjusted value at
visit time is at least one half (`fsQuant`), the working array after the
cell's step is the previous array with the quantization error diffused by
`fsDiffuse`; the in-bounds right, below-left, below and below-right
neighbors receive the error weighted 7/16, 3/16, 5/16 and 1/16 (summing
to the whole error), and no other cell changes. -/
theorem C3_floyd_steinberg :
    (∀ (w h : ℕ) (arr0 : ℕ → ℕ → ℚ) (pre post : List (ℕ × ℕ)) (y x : ℕ),
        fsCells w h = pre ++ (y, x) :: post →
          (fsDither w h arr0).2 y x =
              fsQuant ((fsProcess w h pre (arr0, fun _ _ => 0)).1 y x) ∧
            ∀ y' x',
              (fsProcess w h (pre ++ [(y, x)]) (arr0, fun _ _ => 0)).1 y' x' =
                fsDiffuse w h y x
                  ((fsProcess w h pre (arr0, fun _ _ => 0)).1 y x -
                    fsQuant ((fsProcess w h pre (arr0, fun _ _ => 0)).1 y x))
                  (fsProcess w h pre (arr0, fun _ _ => 0)).1 y' x') ∧
      (∀ (w h y x : ℕ) (err : ℚ) (arr : ℕ → ℕ → ℚ),
        (x + 1 < w →
          fsDiffuse w h y x err arr y (x + 1) = arr y (x + 1) + err * 7 / 16) ∧
        (1 ≤ x → y + 1 < h →
          fsDiffuse w h y x err arr (y + 1) (x - 1) =
            arr (y + 1) (x - 1) + err * 3 / 16) ∧
        (y + 1 < h →
          fsDiffuse w h y x err arr (y + 1) x = arr (y + 1) x + err * 5 / 16) ∧
        (x + 1 < w → y + 1 < h →
          fsDiffuse w h y x err arr (y + 1) (x + 1) =
            arr (y + 1) (x + 1) + err * 1 / 16) ∧
        err * 7 / 16 + err * 3 / 16 + err * 5 / 16 + err * 1 / 16 = err) ∧
      ∀ (w h y x : ℕ) (err : ℚ) (arr : ℕ → ℕ → ℚ) (y' x' : ℕ),
        ¬((y' = y ∧ x' = x + 1 ∧ x + 1 < w) ∨
            (y' = y + 1 ∧ x' = x - 1 ∧ 1 ≤ x ∧ y + 1 < h) ∨
            (y' = y + 1 ∧ x' = x ∧ y + 1 < h) ∨
            (y' = y + 1 ∧ x' = x + 1 ∧ x + 1 < w ∧ y + 1 < h)) →
          fsDiffuse w h y x err arr y' x' = arr y' x' := by
  refine ⟨?_, ?_, ?_⟩
  · intro w h arr0 pre post y x hsplit
    refine ⟨fsDither_out_at w h arr0 pre post y x hsplit, ?_⟩
    intro y' x'
    rw [fsProcess_append]
    rfl
  · intro w h y x err arr
    refine ⟨?_, ?_, ?_, ?_, by ring⟩
    · intro h1
      have hy : ¬(y = y + 1) := by omega
      rw [fsDiffuse_eval]
      simp [h1, hy]
    · intro hx0 h3
      have hy : ¬(y + 1 = y) := by omega
      have hxe : ¬(x - 1 = x) := by omega
      have hxe2 : ¬(x - 1 = x + 1) := by omega
      rw [fsDiffuse_eval]
      simp [hx0, h3, hy, hxe, hxe2]
    · intro h3
      have hy : ¬(y + 1 = y) := by omega
      have hxe : ¬(x = x + 1) := by omega
      rw [fsDiffuse_eval]
      by_cases hx0 : 1 ≤ x
      · have hxm : ¬(x = x - 1) := by omega
        simp [h3, hy, hxm, hxe]
      · simp [h3, hy, hx0, hxe]
    · intro h1 h3
      have hy : ¬(y + 1 = y) := by omega
      have hxe : ¬(x + 1 = x - 1) := by omega
      have hxe2 : ¬(x + 1 = x) := by omega
      rw [fsDiffuse_eval]
      simp [h1, h3, hy, hxe, hxe2]
  · intro w h y x err arr y' x' hnot
    have h1 : ¬(y' = y ∧ x' = x + 1 ∧ x + 1 < w) := fun hc => hnot (Or.inl hc)
    have h2 : ¬(y' = y + 1 ∧ x' = x - 1 ∧ 1 ≤ x ∧ y + 1 < h) := fun hc =>
      hnot (Or.inr (Or.inl hc))
    have h3 : ¬(y' = y + 1 ∧ x' = x ∧ y + 1 < h) := fun hc =>
      hnot (Or.inr (Or.inr (Or.inl hc)))
    have h4 : ¬(y' = y + 1 ∧ x' = x + 1 ∧ x + 1 < w ∧ y + 1 < h) := fun hc =>
      hnot (Or.inr (Or.inr (Or.inr hc)))
    rw [fsDiffuse_eval, if_neg h1, if_neg h2, if_neg h3, if_neg h4]
    ring

theorem C3_floyd_steinberg_witness :
    ((fsDither 2 2 (fun _ _ => (3 : ℚ) / 4)).2 0 1 =
        fsQuant
          ((fsProcess 2 2 [(0, 0)] ((fun _ _ => (3 : ℚ) / 4), fun _ _ => 0)).1 0 1)) ∧
      (∀ y' x',
        (fsProcess 2 2 ([(0, 0)] ++ [(0, 1)])
              ((fun _ _ => (3 : ℚ) / 4), fun _ _ => 0)).1 y' x' =
          fsDiffuse 2 2 0 1
            ((fsProcess 2 2 [(0, 0)] ((fun _ _ => (3 : ℚ) / 4), fun _ _ => 0)).1 0 1 -
              fsQuant
                ((fsProcess 2 2 [(0, 0)]
                    ((fun _ _ => (3 : ℚ) / 4), fun _ _ => 0)).1 0 1))
            (fsProcess 2 2 [(0, 0)] ((fun _ _ => (3 : ℚ) / 4), fun _ _ => 0)).1 y' x') ∧
      fsDiffuse 3 3 1 1 16 (fun _ _ => 0) 1 (1 + 1) =
        (fun _ _ => (0 : ℚ)) 1 (1 + 1) + 16 * 7 / 16 ∧
      fsDiffuse 3 3 1 1 16 (fun _ _ => 0) 0 0 = (fun _ _ => (0 : ℚ)) 0 0 := by
  have hsplit : fsCells 2 2 = [(0, 0)] ++ (0, 1) :: [(1, 0), (1, 1)] := by decide
  have happ :=
    C3_floyd_steinberg.1 2 2 (fun _ _ => (3 : ℚ) / 4) [(0, 0)] [(1, 0), (1, 1)] 0 1 hsplit
  exact ⟨happ.1, happ.2,
    (C3_floyd_steinberg.2.1 3 3 1 1 16 (fun _ _ => 0)).1 (by norm_num),
    C3_floyd_steinberg.2.2 3 3 1 1 16 (fun _ _ => 0) 0 0 (by decide)⟩

end PySeps
